import Mathlib

/-!
Verification of the Metropolis Monte Carlo sampler in `code/mc.py`.

The randomness source is modelled as an explicit stream `rng : ℕ → ℝ` of raw
uniform draws from `[0, 1)`, together with an index `i : ℕ` marking the next
unconsumed draw.  Each call the Python code makes to the process-wide numpy
generator (`np.random.uniform(-h, h)` for a proposal, `np.random.random()`
for an acceptance draw) consumes exactly one stream element.
`np.random.uniform(low, high)` is modelled by its defining transformation
`low + (high - low) * u` of a raw draw `u`.
State, step size and inverse temperature are real numbers; the floating-point
exponential is modelled by the real exponential, which is total.
-/

namespace MC

/-- The Gaussian Hamiltonian `x ** 2` of `H` in mc.py. -/
def H (x : ℝ) : ℝ := x ^ 2

/-- The difference in Hamiltonian, `H(x_new) - H(x_old)`, of `delta_H` in mc.py. -/
def delta_H (x_old x_new : ℝ) : ℝ := H x_new - H x_old

/-- Value of `np.random.uniform(low, high)` given the raw draw `u` from `[0, 1)`. -/
def uniformDraw (low high u : ℝ) : ℝ := low + (high - low) * u

/-- The proposal `x + h * np.random.uniform(-h, h)` of `uniform_step` in mc.py,
with `u` the raw draw consumed by the numpy call. -/
def uniform_step (x h u : ℝ) : ℝ := x + h * uniformDraw (-h) h u

/-- The quantity `np.exp(-beta * delta_H(x_old, x_new))` computed by
`metropolis` in mc.py (named `accept_probability` in the design spec). -/
noncomputable def accept_probability (x_old x_new beta : ℝ) : ℝ :=
  Real.exp (-beta * delta_H x_old x_new)

/-- A single Metropolis update, `metropolis` in mc.py.  Consumes the draw at
index `i` for the proposal, and, unless the `> 1` guard fires, the draw at
index `i + 1` as the acceptance draw.  Returns the `(x, accept)` record
together with the index of the next unconsumed draw. -/
noncomputable def metropolis (x h beta : ℝ) (rng : ℕ → ℝ) (i : ℕ) :
    (ℝ × ℕ) × ℕ :=
  let x_new := uniform_step x h (rng i)
  let exp_minusbetadeltaH := accept_probability x x_new beta
  if exp_minusbetadeltaH > 1 then ((x_new, 1), i + 1)
  else if rng (i + 1) < exp_minusbetadeltaH then ((x_new, 1), i + 2)
  else ((x, 0), i + 2)

/-- The `for i in range(num_iterations)` loop of `run_mc` in mc.py: the list of
`(x, accept)` records written after the header, threading the state and the
randomness index through the steps. -/
noncomputable def run_mc_loop (h beta : ℝ) (rng : ℕ → ℝ) :
    ℝ → ℕ → ℕ → List (ℝ × ℕ)
  | _, _, 0 => []
  | x, i, n + 1 =>
    (metropolis x h beta rng i).1 ::
      run_mc_loop h beta rng (metropolis x h beta rng i).1.1
        (metropolis x h beta rng i).2 n

/-- The state held by `run_mc` in mc.py after `n` loop iterations. -/
noncomputable def run_state (h beta : ℝ) (rng : ℕ → ℝ) : ℝ → ℕ → ℕ → ℝ
  | x, _, 0 => x
  | x, i, n + 1 =>
    run_state h beta rng (metropolis x h beta rng i).1.1
      (metropolis x h beta rng i).2 n

/-- The index of the next unconsumed random draw after `n` loop iterations of
`run_mc` in mc.py. -/
noncomputable def run_idx (h beta : ℝ) (rng : ℕ → ℝ) : ℝ → ℕ → ℕ → ℕ
  | _, i, 0 => i
  | x, i, n + 1 =>
    run_idx h beta rng (metropolis x h beta rng i).1.1
      (metropolis x h beta rng i).2 n

/-- Observable effect of one invocation of `run_mc` in mc.py on the output
file and the randomness source. -/
structure McOutput where
  fileCreated : Bool
  headerWritten : Bool
  records : List (ℝ × ℕ)
  drawsConsumed : ℕ

/-- The chain driver `run_mc` in mc.py.  `open(output_file, "w")` always
creates or truncates the file, the header row `x, accept` is always written,
and `range(num_iterations)` for an `int` argument executes
`max(num_iterations, 0)` iterations, i.e. `num_iterations.toNat` of them. -/
noncomputable def run_mc (x h beta : ℝ) (num_iterations : ℤ) (rng : ℕ → ℝ)
    (i : ℕ) : McOutput :=
  { fileCreated := true
  , headerWritten := true
  , records := run_mc_loop h beta rng x i num_iterations.toNat
  , drawsConsumed := run_idx h beta rng x i num_iterations.toNat - i }

/-- The state of the most recent record of `rs`, or `x` if there is none. -/
def lastState (x : ℝ) (rs : List (ℝ × ℕ)) : ℝ :=
  (rs.getLast?.map Prod.fst).getD x

/-- The sequence of raw proposals generated at each step when every proposal
is accepted: each step proposes from the previous proposal and consumes two
draws (one for the proposal, one for the acceptance test). -/
def proposal_seq (h : ℝ) (rng : ℕ → ℝ) : ℝ → ℕ → ℕ → List ℝ
  | _, _, 0 => []
  | x, i, n + 1 =>
    uniform_step x h (rng i) ::
      proposal_seq h rng (uniform_step x h (rng i)) (i + 2) n

/-- The all-zero draw stream, used as a concrete randomness source. -/
def rng0 : ℕ → ℝ := fun _ => 0

/-- A draw stream that differs from `rng0` only at index `0`. -/
def rngB : ℕ → ℝ := fun j => if j = 0 then 7 else 0

/-- Case analysis of a Metropolis step: it accepts the proposal via the
`> 1` guard after one draw, accepts it after a second draw, or rejects it
after a second draw. -/
lemma metropolis_cases (x h beta : ℝ) (rng : ℕ → ℝ) (i : ℕ) :
    metropolis x h beta rng i = ((uniform_step x h (rng i), 1), i + 1) ∨
    metropolis x h beta rng i = ((uniform_step x h (rng i), 1), i + 2) ∨
    metropolis x h beta rng i = ((x, 0), i + 2) := by
  by_cases hp : 1 < accept_probability x (uniform_step x h (rng i)) beta
  · exact Or.inl (by simp [metropolis, hp])
  · by_cases hu :
        rng (i + 1) < accept_probability x (uniform_step x h (rng i)) beta
    · exact Or.inr (Or.inl (by simp [metropolis, hp, hu]))
    · exact Or.inr (Or.inr (by simp [metropolis, hp, hu]))

/-- A Metropolis step never rewinds the randomness stream. -/
lemma metropolis_idx_ge (x h beta : ℝ) (rng : ℕ → ℝ) (i : ℕ) :
    i ≤ (metropolis x h beta rng i).2 := by
  rcases metropolis_cases x h beta rng i with hm | hm | hm <;> rw [hm] <;> omega

/-- Claim C1: a single Metropolis step proposes `x_new`, computes
`p = exp(-beta * delta_H x x_new)`, accepts unconditionally without
consuming an acceptance draw when `p > 1`, otherwise consumes the draw at
index `i + 1` and accepts exactly when it is `< p`; it returns
`(x_new, 1)` on acceptance and the unchanged `(x, 0)` on rejection. -/
theorem metropolis_step_spec (x h beta : ℝ) (rng : ℕ → ℝ) (i : ℕ) :
    (1 < Real.exp (-beta * delta_H x (uniform_step x h (rng i))) →
      metropolis x h beta rng i = ((uniform_step x h (rng i), 1), i + 1)) ∧
    (¬ 1 < Real.exp (-beta * delta_H x (uniform_step x h (rng i))) →
      rng (i + 1) < Real.exp (-beta * delta_H x (uniform_step x h (rng i))) →
      metropolis x h beta rng i = ((uniform_step x h (rng i), 1), i + 2)) ∧
    (¬ 1 < Real.exp (-beta * delta_H x (uniform_step x h (rng i))) →
      ¬ rng (i + 1) < Real.exp (-beta * delta_H x (uniform_step x h (rng i))) →
      metropolis x h beta rng i = ((x, 0), i + 2)) := by
  refine ⟨fun hp => ?_, fun hp hu => ?_, fun hp hu => ?_⟩
  · simp_all [metropolis, accept_probability]
  · simp_all [metropolis, accept_probability]
  · simp only [metropolis, accept_probability, gt_iff_lt]
    rw [if_neg hp, if_neg hu]

/-- Witness for C1: at `x = h = beta = 0` with the all-zero stream the
acceptance probability is exactly `1`, the guard does not fire, and the
acceptance draw `0 < 1` is consumed, accepting the proposal. -/
theorem metropolis_step_spec_witness :
    metropolis 0 0 0 rng0 0 = ((uniform_step 0 0 (rng0 0), 1), 0 + 2) :=
  (metropolis_step_spec 0 0 0 rng0 0).2.1
    (by norm_num [delta_H, H, uniform_step, uniformDraw, rng0])
    (by norm_num [delta_H, H, uniform_step, uniformDraw, rng0])

/-- Claim C2: the proposal is `x + h * U` with `U` uniform on `[-h, h]`, so
for every raw draw in `[0, 1)` the candidate lies in `[x - h^2, x + h^2]`,
and for `h = 0` the candidate equals `x` for every draw. -/
theorem uniform_step_window (x h u : ℝ) :
    (0 ≤ u → u < 1 →
      x - h ^ 2 ≤ uniform_step x h u ∧ uniform_step x h u ≤ x + h ^ 2) ∧
    uniform_step x 0 u = x := by
  constructor
  · intro h0 h1
    simp only [uniform_step, uniformDraw]
    constructor
    · nlinarith [sq_nonneg h, mul_nonneg (sq_nonneg h) h0]
    · nlinarith [sq_nonneg h, mul_nonneg (sq_nonneg h) h0]
  · simp [uniform_step, uniformDraw]

/-- Witness for C2: at `x = 0`, `h = 1`, raw draw `0` the candidate is `-1`,
which lies in `[0 - 1, 0 + 1]`. -/
theorem uniform_step_window_witness :
    (0 : ℝ) - 1 ^ 2 ≤ uniform_step 0 1 0 ∧ uniform_step 0 1 0 ≤ 0 + 1 ^ 2 :=
  (uniform_step_window 0 1 0).1 (by norm_num) (by norm_num)

/-- Claim C8: the Metropolis step is total: for every real input it returns
one of the two well-formed `(state, flag)` outcomes, the acceptance quantity
`exp(-beta * delta_H)` is a strictly positive real (never an error value),
and at most two draws are consumed. -/
theorem metropolis_total (x h beta : ℝ) (rng : ℕ → ℝ) (i : ℕ) :
    (metropolis x h beta rng i = ((uniform_step x h (rng i), 1), i + 1) ∨
     metropolis x h beta rng i = ((uniform_step x h (rng i), 1), i + 2) ∨
     metropolis x h beta rng i = ((x, 0), i + 2)) ∧
    0 < accept_probability x (uniform_step x h (rng i)) beta :=
  ⟨metropolis_cases x h beta rng i, Real.exp_pos _⟩

/-- Claim C10: when `beta * delta_H = 0` the acceptance probability is
exactly `1`, the `> 1` guard does not fire, and the step still consumes one
acceptance draw (ending at index `i + 2`) yet accepts for every draw in
`[0, 1)`. -/
theorem accept_probability_one_consumes_draw (x h beta : ℝ) (rng : ℕ → ℝ)
    (i : ℕ) (hz : beta * delta_H x (uniform_step x h (rng i)) = 0)
    (h0 : 0 ≤ rng (i + 1)) (h1 : rng (i + 1) < 1) :
    metropolis x h beta rng i = ((uniform_step x h (rng i), 1), i + 2) := by
  have hp : accept_probability x (uniform_step x h (rng i)) beta = 1 := by
    rw [accept_probability, neg_mul, hz, neg_zero, Real.exp_zero]
  simp [metropolis, hp, h1]

/-- Witness for C10: at `x = 0`, `h = 0`, `beta = 1` the energy difference
is `0`, so the probability is exactly `1` and the all-zero acceptance draw
is consumed and accepted. -/
theorem accept_probability_one_consumes_draw_witness :
    metropolis 0 0 1 rng0 0 = ((uniform_step 0 0 (rng0 0), 1), 0 + 2) :=
  accept_probability_one_consumes_draw 0 0 1 rng0 0
    (by norm_num [delta_H, H, uniform_step, uniformDraw, rng0])
    (by norm_num [rng0]) (by norm_num [rng0])

/-- Claim C5: for any states with `H x_new ≤ H x_old` and any `beta ≥ 0`
the acceptance probability `exp(-beta * delta_H)` is at least `1`, and a
Metropolis step whose proposal does not increase the energy accepts it for
every acceptance draw in `[0, 1)`. -/
theorem energy_decreasing_accepted (beta x h : ℝ) (rng : ℕ → ℝ) (i : ℕ)
    (hb : 0 ≤ beta) :
    (∀ x_old x_new : ℝ, H x_new ≤ H x_old →
      1 ≤ accept_probability x_old x_new beta) ∧
    (H (uniform_step x h (rng i)) ≤ H x → rng (i + 1) < 1 →
      (metropolis x h beta rng i).1 = (uniform_step x h (rng i), 1)) := by
  have key : ∀ x_old x_new : ℝ, H x_new ≤ H x_old →
      1 ≤ accept_probability x_old x_new beta := by
    intro x_old x_new hE
    rw [accept_probability, ← Real.exp_zero]
    apply Real.exp_le_exp.mpr
    have hd : delta_H x_old x_new ≤ 0 := by
      rw [delta_H]
      linarith
    nlinarith
  refine ⟨key, fun hE hu => ?_⟩
  rcases lt_or_eq_of_le (key x (uniform_step x h (rng i)) hE) with hlt | heq
  · simp [metropolis, hlt]
  · simp [metropolis, ← heq, hu]

/-- Witness for C5: with `x = 1`, `h = 1`, `beta = 1` and the all-zero
stream the proposal is `0`, the energy drops from `1` to `0`, and the step
accepts it. -/
theorem energy_decreasing_accepted_witness :
    (metropolis 1 1 1 rng0 0).1 = (uniform_step 1 1 (rng0 0), 1) :=
  (energy_decreasing_accepted 1 1 1 rng0 0 (by norm_num)).2
    (by norm_num [H, uniform_step, uniformDraw, rng0])
    (by norm_num [rng0])

/-- Claim C4: at `beta = 0` every record produced by the chain loop carries
accept flag `1`, and the recorded states are exactly the raw proposals
generated at each step, for every stream of draws from `[0, 1)`. -/
theorem beta_zero_all_accepted (x h : ℝ) (rng : ℕ → ℝ) (i n : ℕ)
    (hr : ∀ j, rng j < 1) :
    (run_mc_loop h 0 rng x i n).map Prod.snd = List.replicate n 1 ∧
    (run_mc_loop h 0 rng x i n).map Prod.fst = proposal_seq h rng x i n := by
  induction n generalizing x i with
  | zero => simp [run_mc_loop, proposal_seq]
  | succ n ih =>
    have hp : accept_probability x (uniform_step x h (rng i)) 0 = 1 := by
      simp [accept_probability]
    have hm : metropolis x h 0 rng i =
        ((uniform_step x h (rng i), 1), i + 2) := by
      simp [metropolis, hp, hr (i + 1)]
    simp [run_mc_loop, proposal_seq, hm, ih, List.replicate_succ]

/-- Witness for C4: two steps at `beta = 0` with the all-zero stream both
accept and record the raw proposals. -/
theorem beta_zero_all_accepted_witness :
    (run_mc_loop 1 0 rng0 0 0 2).map Prod.snd = List.replicate 2 1 ∧
    (run_mc_loop 1 0 rng0 0 0 2).map Prod.fst = proposal_seq 1 rng0 0 0 2 :=
  beta_zero_all_accepted 0 1 rng0 0 2 (fun j => by norm_num [rng0])

/-- Appending a record moves the fallback state of `lastState`. -/
lemma lastState_cons (x : ℝ) (r : ℝ × ℕ) (rs : List (ℝ × ℕ)) :
    lastState x (r :: rs) = lastState r.1 rs := by
  cases rs with
  | nil => simp [lastState]
  | cons a l =>
    obtain ⟨b, hb⟩ := Option.isSome_iff_exists.mp
      (List.getLast?_isSome.mpr (List.cons_ne_nil a l))
    simp [lastState, List.getLast?_cons_cons, hb]

/-- Claim C6: the record at index `n` is computed by a Metropolis step from
the state and stream position reached after the first `n` steps, and that
state is the state of the most recent record (or `x` when no record
exists). -/
theorem run_mc_state_continuity (x h beta : ℝ) (rng : ℕ → ℝ) (i n : ℕ) :
    run_mc_loop h beta rng x i (n + 1)
      = run_mc_loop h beta rng x i n
        ++ [(metropolis (run_state h beta rng x i n) h beta rng
              (run_idx h beta rng x i n)).1] ∧
    run_state h beta rng x i n = lastState x (run_mc_loop h beta rng x i n) := by
  induction n generalizing x i with
  | zero => simp [run_mc_loop, run_state, run_idx, lastState]
  | succ n ih =>
    have hrec := ih (metropolis x h beta rng i).1.1 (metropolis x h beta rng i).2
    constructor
    · have l1 : run_mc_loop h beta rng x i (n + 1 + 1)
          = (metropolis x h beta rng i).1 ::
            run_mc_loop h beta rng (metropolis x h beta rng i).1.1
              (metropolis x h beta rng i).2 (n + 1) := rfl
      have l2 : run_mc_loop h beta rng x i (n + 1)
          = (metropolis x h beta rng i).1 ::
            run_mc_loop h beta rng (metropolis x h beta rng i).1.1
              (metropolis x h beta rng i).2 n := rfl
      rw [l1, hrec.1, l2]
      simp [run_state, run_idx]
    · have l2 : run_mc_loop h beta rng x i (n + 1)
          = (metropolis x h beta rng i).1 ::
            run_mc_loop h beta rng (metropolis x h beta rng i).1.1
              (metropolis x h beta rng i).2 n := rfl
      rw [l2, lastState_cons]
      exact hrec.2

/-- The chain loop yields one record per iteration. -/
lemma run_mc_loop_length (h beta : ℝ) (rng : ℕ → ℝ) :
    ∀ (n : ℕ) (x : ℝ) (i : ℕ), (run_mc_loop h beta rng x i n).length = n := by
  intro n
  induction n with
  | zero => intro x i; rfl
  | succ n ih => intro x i; simp [run_mc_loop, ih]

/-- Claim C7: the driver writes the header and then exactly `n` records for
every non-negative iteration count `n`, and at `n = 0` it produces the
header and an empty record sequence. -/
theorem run_mc_record_count (x h beta : ℝ) (rng : ℕ → ℝ) (i n : ℕ) :
    (run_mc x h beta (n : ℤ) rng i).records.length = n ∧
    (run_mc x h beta (n : ℤ) rng i).headerWritten = true ∧
    (run_mc x h beta 0 rng i).records = [] := by
  refine ⟨?_, rfl, rfl⟩
  simp [run_mc, run_mc_loop_length]

/-- The chain loop only reads the stream from the current index onward. -/
lemma run_mc_loop_congr (h beta : ℝ) (rng1 rng2 : ℕ → ℝ) :
    ∀ (n : ℕ) (x : ℝ) (i : ℕ), (∀ j, i ≤ j → rng1 j = rng2 j) →
      run_mc_loop h beta rng1 x i n = run_mc_loop h beta rng2 x i n := by
  intro n
  induction n with
  | zero => intro x i _; rfl
  | succ n ih =>
    intro x i hagree
    have hm : metropolis x h beta rng1 i = metropolis x h beta rng2 i := by
      simp only [metropolis, hagree i le_rfl, hagree (i + 1) (by omega)]
    show (metropolis x h beta rng1 i).1 ::
        run_mc_loop h beta rng1 (metropolis x h beta rng1 i).1.1
          (metropolis x h beta rng1 i).2 n = _
    rw [hm]
    exact congrArg _ (ih _ _ fun j hj =>
      hagree j ((metropolis_idx_ge x h beta rng2 i).trans hj))

/-- Claim C9: two invocations of the driver with the same parameters and
draw streams that agree from the current position onward (a fixed seed)
produce identical record sequences. -/
theorem run_mc_deterministic (x h beta : ℝ) (rng1 rng2 : ℕ → ℝ) (i : ℕ)
    (N : ℤ) (hagree : ∀ j, i ≤ j → rng1 j = rng2 j) :
    (run_mc x h beta N rng1 i).records = (run_mc x h beta N rng2 i).records := by
  simp only [run_mc]
  exact run_mc_loop_congr h beta rng1 rng2 N.toNat x i hagree

/-- Witness for C9: the streams `rngB` and `rng0` agree from index `1`
onward, so two runs started at index `1` record the same sequence. -/
theorem run_mc_deterministic_witness :
    (run_mc 0 1 1 2 rngB 1).records = (run_mc 0 1 1 2 rng0 1).records :=
  run_mc_deterministic 0 1 1 rngB rng0 1 2 (fun j hj => by
    have hne : j ≠ 0 := by omega
    simp [rngB, rng0, hne])

/-- Claim C3 counterexample: at `num_iterations = -1` the driver does not
fail: it creates (truncates) the output file and writes the header, consumes
no draws, and silently produces zero records — contradicting the claim that
the file is not created and an `InvalidParameter` error is raised. -/
theorem run_mc_negative_N_counterexample :
    (run_mc 0 0 0 (-1) rng0 0).fileCreated = true ∧
    (run_mc 0 0 0 (-1) rng0 0).records = [] ∧
    (run_mc 0 0 0 (-1) rng0 0).drawsConsumed = 0 :=
  ⟨rfl, rfl, rfl⟩

/-- Claim C3 as amended: for every negative iteration count the driver
returns normally after creating the file and writing the header, with no
records emitted and no randomness consumed. -/
theorem run_mc_negative_N (x h beta : ℝ) (rng : ℕ → ℝ) (i : ℕ) (N : ℤ)
    (hN : N < 0) :
    run_mc x h beta N rng i =
      { fileCreated := true, headerWritten := true, records := []
      , drawsConsumed := 0 } := by
  have h0 : N.toNat = 0 := Int.toNat_of_nonpos (le_of_lt hN)
  simp [run_mc, h0, run_mc_loop, run_idx]

/-- Witness for C3 (amended): the amended behaviour at `N = -1`. -/
theorem run_mc_negative_N_witness :
    run_mc 0 0 0 (-1) rng0 0 =
      { fileCreated := true, headerWritten := true, records := []
      , drawsConsumed := 0 } :=
  run_mc_negative_N 0 0 0 rng0 0 (-1) (by norm_num)

end MC
